import Mathlib

/-!
Verification development for the zero-copy ITCH market-data feed handler.

The embedding models byte buffers as `List Nat` (each entry one byte).
Reads of multi-byte integers mirror the source's `uint8_t` casts by
reducing each byte modulo 256 before composing.

Sources embedded:
* `src/include/itch/parser.hpp` — `get_message_size`, `Parser::parse`,
  `Parser::parse_buffer` (visitor calls are modelled as an emitted event list).
* `src/src/replay_driver.cpp` / `src/src/main.cpp` — `is_valid_itch_type`,
  `find_itch_offset`.
* `src/include/itch/pcap_reader.hpp` — `PcapReader::open`,
  `PcapReader::for_each_packet` (modelled over the mapped file content).
* The wire-message layouts (`messages.hpp`) and the matching engine
  (`order_book.hpp`) are not present in the repository snapshot; they are
  modelled from the spec, as marked on each definition.
-/

namespace Itch

/-- Read one byte of a buffer; out-of-range reads give 0, and entries are
reduced mod 256 so that every read is a byte (mirrors `uint8_t` access). -/
def byteAt (buf : List Nat) (i : Nat) : Nat := buf.getD i 0 % 256

/-- Big-endian 16-bit read at offset `i`. -/
def be16 (buf : List Nat) (i : Nat) : Nat := byteAt buf i * 256 + byteAt buf (i+1)

/-- Big-endian 32-bit read at offset `i`. -/
def be32 (buf : List Nat) (i : Nat) : Nat :=
  byteAt buf i * 16777216 + byteAt buf (i+1) * 65536 +
  byteAt buf (i+2) * 256 + byteAt buf (i+3)

/-- Big-endian 48-bit read at offset `i` (the 6-byte ITCH timestamp,
reconstructed by shift-and-or exactly as in the spec and in
`parse_naive` of `benchmarks/itch_bench.cpp`). -/
def be48 (buf : List Nat) (i : Nat) : Nat :=
  byteAt buf i * 1099511627776 + byteAt buf (i+1) * 4294967296 +
  byteAt buf (i+2) * 16777216 + byteAt buf (i+3) * 65536 +
  byteAt buf (i+4) * 256 + byteAt buf (i+5)

/-- Big-endian 64-bit read at offset `i`. -/
def be64 (buf : List Nat) (i : Nat) : Nat :=
  be32 buf i * 4294967296 + be32 buf (i+4)

/-- Modelled from the spec: the `MessageHeader` wire view of `messages.hpp`
(absent from the snapshot): 1-byte type, 2-byte stock-locate, 2-byte
tracking-number, 6-byte timestamp, all big-endian; 12 bytes total. -/
structure MessageHeaderView where
  msg_type : Nat
  stock_locate : Nat
  tracking_number : Nat
  timestamp : Nat
deriving DecidableEq, Repr

/-- Modelled from the spec: the `AddOrder` wire view of `messages.hpp`
(absent from the snapshot): header + 8-byte order reference + 1-byte side +
4-byte shares + 8-byte ASCII symbol + 4-byte price; 36 bytes total.  The
field offsets agree with `create_add_order_message` and `parse_naive` in
`benchmarks/itch_bench.cpp`. -/
structure AddOrderView where
  header : MessageHeaderView
  order_ref : Nat
  side : Nat
  shares : Nat
  symbol : List Nat
  price : Nat
deriving DecidableEq, Repr

/-- Modelled from the spec: the `OrderExecuted` wire view of `messages.hpp`
(absent from the snapshot): header + 8-byte order reference + 4-byte
executed shares + 8-byte match reference; 31 bytes total. -/
structure OrderExecutedView where
  header : MessageHeaderView
  order_ref : Nat
  executed_shares : Nat
  match_ref : Nat
deriving DecidableEq, Repr

/-- Decode the common message header from the first 12 bytes. -/
def decodeHeader (buf : List Nat) : MessageHeaderView where
  msg_type := byteAt buf 0
  stock_locate := be16 buf 1
  tracking_number := be16 buf 3
  timestamp := be48 buf 5

/-- Decode an `AddOrder` view from the first 36 bytes. -/
def decodeAddOrder (buf : List Nat) : AddOrderView where
  header := decodeHeader buf
  order_ref := be64 buf 11
  side := byteAt buf 19
  shares := be32 buf 20
  symbol := (buf.drop 24).take 8
  price := be32 buf 32

/-- Decode an `OrderExecuted` view from the first 31 bytes. -/
def decodeOrderExecuted (buf : List Nat) : OrderExecutedView where
  header := decodeHeader buf
  order_ref := be64 buf 11
  executed_shares := be32 buf 19
  match_ref := be64 buf 23

/-- Modelled from the spec: `side_is_buy()` of `messages.hpp` (absent from
the snapshot) — true iff the side byte is the character code of B. -/
def side_is_buy (v : AddOrderView) : Bool := v.side = 66

/-- Result of `Parser::parse` (`parser.hpp`, `ParseResult`). -/
inductive ParseResult where
  | Ok
  | BufferTooSmall
  | UnknownType
  | InvalidLength
deriving DecidableEq, Repr

/-- One visitor invocation performed by the parser.  `onUnknown` records the
tag byte and the length of the remaining buffer handed to the handler. -/
inductive Event where
  | onAddOrder (v : AddOrderView)
  | onOrderExecuted (v : OrderExecutedView)
  | onSystemEvent (v : MessageHeaderView)
  | onUnknown (tag : Nat) (len : Nat)
deriving DecidableEq, Repr

/-- Does an event record an `on_unknown` call? -/
def Event.isUnknown : Event → Bool
  | .onUnknown _ _ => true
  | _ => false

/-- Size of `MessageHeader` (12 bytes; `messages.hpp` layouts fixed by the
spec table, 36/31/12, and cross-checked against the benchmark builder). -/
def headerSize : Nat := 12

/-- Size of `AddOrder` (36 bytes). -/
def addOrderSize : Nat := 36

/-- Size of `OrderExecuted` (31 bytes). -/
def orderExecutedSize : Nat := 31

/-- `get_message_size` of `parser.hpp`: tag A (65) → sizeof AddOrder,
tag E (69) → sizeof OrderExecuted, tag S (83) → sizeof MessageHeader,
everything else → 0. -/
def get_message_size (t : Nat) : Nat :=
  if t = 65 then addOrderSize
  else if t = 69 then orderExecutedSize
  else if t = 83 then headerSize
  else 0

/-- `Parser::parse` of `parser.hpp`: check the buffer against
`sizeof(MessageHeader)` first, then switch on the first byte, dispatching
one visitor call.  The dispatched calls are returned as an event list. -/
def parse (buf : List Nat) : ParseResult × List Event :=
  if buf.length < headerSize then (.BufferTooSmall, [])
  else
    let t := buf.getD 0 0
    if t = 65 then
      if buf.length < addOrderSize then (.BufferTooSmall, [])
      else (.Ok, [.onAddOrder (decodeAddOrder buf)])
    else if t = 69 then
      if buf.length < orderExecutedSize then (.BufferTooSmall, [])
      else (.Ok, [.onOrderExecuted (decodeOrderExecuted buf)])
    else if t = 83 then
      if buf.length < headerSize then (.BufferTooSmall, [])
      else (.Ok, [.onSystemEvent (decodeHeader buf)])
    else (.UnknownType, [.onUnknown t buf.length])

/-- Loop body of `Parser::parse_buffer` of `parser.hpp`, written on the
unconsumed suffix: look up the size of the tag at the front; an unknown tag
emits `on_unknown` and stops; an incomplete message stops; otherwise
`parse` the first `s` bytes and continue after them (the source also stops
when that inner `parse` reports anything but `Ok`/`UnknownType`).  Returns
the bytes consumed and the events dispatched.  The `fuel` argument only
bounds the recursion (every step consumes at least one byte, so
`buf.length` fuel is always enough); the fuel-exhausted branch is
unreachable from `parse_buffer`. -/
def parseBufferGo : Nat → List Nat → Nat × List Event
  | _, [] => (0, [])
  | 0, _ :: _ => (0, [])
  | fuel + 1, t :: rest =>
    let s := get_message_size t
    if s = 0 then (0, [.onUnknown t (t :: rest).length])
    else if (t :: rest).length < s then (0, [])
    else
      let step := parse ((t :: rest).take s)
      if step.1 = .Ok ∨ step.1 = .UnknownType then
        let nxt := parseBufferGo fuel ((t :: rest).drop s)
        (s + nxt.1, step.2 ++ nxt.2)
      else (0, step.2)

/-- `Parser::parse_buffer` of `parser.hpp`. -/
def parse_buffer (buf : List Nat) : Nat × List Event :=
  parseBufferGo buf.length buf

/-- The 36-byte AddOrder message built by `create_add_order_message` in
`benchmarks/itch_bench.cpp`: tag A, stock-locate 1234, tracking 5678,
timestamp 45296789012345 ns, order-ref 0x123456789ABCDEF0, side B,
shares 1000, symbol AAPL padded with spaces, price 1502500. -/
def benchAddOrderBytes : List Nat :=
  [65, 4, 210, 22, 46,
   41, 50, 123, 4, 191, 121,
   18, 52, 86, 120, 154, 188, 222, 240,
   66, 0, 0, 3, 232,
   65, 65, 80, 76, 32, 32, 32, 32,
   0, 22, 237, 36]

/-- The byte sequence listed in scenario S1 of the spec, split into bytes
exactly as printed there (it runs to 37 bytes, one more than an AddOrder). -/
def specListedBytes : List Nat :=
  [65, 4, 210, 22, 46,
   0, 41, 43, 0, 47, 0,
   57, 18, 52, 86, 120, 154, 188, 222,
   240, 66, 0, 0, 3,
   232, 65, 65, 80, 76, 32, 32, 32,
   32, 0, 22, 225, 100]

/-- A buffer whose first byte has a non-zero table size and whose length is
exactly that size parses to `Ok` with exactly one visitor call, and that
call is not `on_unknown`. -/
lemma parse_known_exact (buf : List Nat) (hs : get_message_size (buf.getD 0 0) ≠ 0)
    (hfit : buf.length = get_message_size (buf.getD 0 0)) :
    ∃ e, parse buf = (ParseResult.Ok, [e]) ∧ e.isUnknown = false := by
  cases buf with
  | nil => simp [get_message_size] at hs
  | cons t rest =>
    simp only [List.getD_cons_zero] at hs hfit
    have htv : t = 65 ∨ t = 69 ∨ t = 83 := by
      by_contra h
      push_neg at h
      simp [get_message_size, h.1, h.2.1, h.2.2] at hs
    rcases htv with h | h | h <;> subst h
    · refine ⟨Event.onAddOrder (decodeAddOrder (65 :: rest)), ?_, rfl⟩
      have hlen : (65 :: rest).length = 36 := by
        simpa [get_message_size, addOrderSize] using hfit
      simp [parse, headerSize, addOrderSize, hlen]
    · refine ⟨Event.onOrderExecuted (decodeOrderExecuted (69 :: rest)), ?_, rfl⟩
      have hlen : (69 :: rest).length = 31 := by
        simpa [get_message_size, orderExecutedSize] using hfit
      simp [parse, headerSize, orderExecutedSize, hlen]
    · refine ⟨Event.onSystemEvent (decodeHeader (83 :: rest)), ?_, rfl⟩
      have hlen : (83 :: rest).length = 12 := by
        simpa [get_message_size, headerSize] using hfit
      simp [parse, headerSize, hlen]

/-- Behaviour of the `parse_buffer` loop body, by induction on the fuel:
the consumed count never exceeds the buffer, at most one `on_unknown` fires,
and the unconsumed tail is empty, a partial known message, or starts at the
unknown tag that fired. -/
lemma parseBufferGo_spec (fuel : Nat) : ∀ (buf : List Nat) (c : Nat) (evs : List Event),
    buf.length ≤ fuel →
    parseBufferGo fuel buf = (c, evs) →
    c ≤ buf.length ∧
    evs.countP Event.isUnknown ≤ 1 ∧
    ((∀ e ∈ evs, e.isUnknown = false) →
      buf.drop c = [] ∨ ∃ t ts, buf.drop c = t :: ts ∧
        0 < get_message_size t ∧ (buf.drop c).length < get_message_size t) ∧
    ((∃ e ∈ evs, e.isUnknown = true) →
      ∃ t ts, buf.drop c = t :: ts ∧ get_message_size t = 0 ∧
        evs.countP Event.isUnknown = 1 ∧
        evs.getLast? = some (Event.onUnknown t (buf.drop c).length)) := by
  induction fuel with
  | zero =>
    intro buf c evs hle heq
    have hb : buf = [] := List.length_eq_zero.1 (Nat.le_zero.1 hle)
    subst hb
    simp only [parseBufferGo] at heq
    cases heq
    simp
  | succ n ih =>
    intro buf c evs hle heq
    match buf with
    | [] =>
      simp only [parseBufferGo] at heq
      cases heq
      simp
    | t :: rest =>
      simp only [parseBufferGo] at heq
      by_cases hs : get_message_size t = 0
      · rw [if_pos hs] at heq
        cases heq
        refine ⟨Nat.zero_le _, by simp [Event.isUnknown], ?_, ?_⟩
        · intro hall
          have hcontra := hall (Event.onUnknown t (t :: rest).length) (by simp)
          simp [Event.isUnknown] at hcontra
        · intro _
          exact ⟨t, rest, rfl, hs, by simp [Event.isUnknown], by simp⟩
      · rw [if_neg hs] at heq
        by_cases hlen : (t :: rest).length < get_message_size t
        · rw [if_pos hlen] at heq
          cases heq
          refine ⟨Nat.zero_le _, by simp, ?_, ?_⟩
          · intro _
            exact Or.inr ⟨t, rest, rfl, Nat.pos_of_ne_zero hs, hlen⟩
          · intro hex
            simp at hex
        · rw [if_neg hlen] at heq
          push_neg at hlen
          obtain ⟨e, hpe, heu⟩ := parse_known_exact ((t :: rest).take (get_message_size t))
            (by
              have : ((t :: rest).take (get_message_size t)).getD 0 0 = t := by
                cases hgs : get_message_size t with
                | zero => exact absurd hgs hs
                | succ k => simp [List.take_succ_cons]
              rw [this]; exact hs)
            (by
              have hgd : ((t :: rest).take (get_message_size t)).getD 0 0 = t := by
                cases hgs : get_message_size t with
                | zero => exact absurd hgs hs
                | succ k => simp [List.take_succ_cons]
              rw [hgd, List.length_take]
              simp only [List.length_cons] at hlen ⊢
              omega)
          rw [hpe] at heq
          rw [if_pos (Or.inl rfl)] at heq
          obtain ⟨c', evs', hgo⟩ : ∃ c' evs',
              parseBufferGo n ((t :: rest).drop (get_message_size t)) = (c', evs') :=
            ⟨_, _, rfl⟩
          rw [hgo] at heq
          simp only [] at heq
          cases heq
          have hdl : ((t :: rest).drop (get_message_size t)).length ≤ n := by
            simp only [List.length_drop, List.length_cons]
            have : 1 ≤ get_message_size t := Nat.pos_of_ne_zero hs
            simp only [List.length_cons] at hle
            omega
          obtain ⟨ihc, ihcount, ihok, ihunk⟩ := ih _ _ _ hdl hgo
          have hdd : ∀ m : Nat, ((t :: rest).drop (get_message_size t)).drop m =
              (t :: rest).drop (get_message_size t + m) := by
            intro m
            simp [List.drop_drop, Nat.add_comm]
          have hcount1 : List.countP Event.isUnknown [e] = 0 := by
            simp [heu]
          refine ⟨?_, ?_, ?_, ?_⟩
          · simp only [List.length_drop] at ihc
            simp only [List.length_cons]
            simp only [List.length_cons] at hlen ihc
            omega
          · rw [List.countP_append, hcount1]
            simpa using ihcount
          · intro hall
            have hall' : ∀ e' ∈ evs', e'.isUnknown = false := fun e' he' =>
              hall e' (by simp [he'])
            rw [← hdd]
            exact ihok hall'
          · intro hex
            obtain ⟨e', he', heu'⟩ := hex
            have he'' : e' ∈ evs' := by
              rcases List.mem_append.1 he' with h | h
              · simp at h
                subst h
                rw [heu'] at heu
                cases heu
              · exact h
            obtain ⟨u, us, hdrop, hu0, hucount, hulast⟩ := ihunk ⟨e', he'', heu'⟩
            refine ⟨u, us, ?_, hu0, ?_, ?_⟩
            · rw [← hdd]; exact hdrop
            · rw [List.countP_append, hcount1]
              simpa using hucount
            · rw [List.getLast?_append_of_ne_nil]
              · rw [hulast, ← hdd]
              · intro hnil
                rw [hnil] at he''
                cases he''

/-- Claim C2: `Parser::parse_buffer` consumes a prefix of the buffer and
stops exactly at exhaustion, at a partial known-size message (the count
stops at the start of the partial), or at the first unknown tag after one
`on_unknown` notification; the consumed count plus the unconsumed tail
always re-assembles the buffer length (in particular when no unknown tag
occurs). -/
theorem parse_buffer_stream_law (buf : List Nat) (c : Nat) (evs : List Event)
    (h : parse_buffer buf = (c, evs)) :
    c ≤ buf.length ∧
    c + (buf.drop c).length = buf.length ∧
    evs.countP Event.isUnknown ≤ 1 ∧
    ((∀ e ∈ evs, e.isUnknown = false) →
      buf.drop c = [] ∨ ∃ t ts, buf.drop c = t :: ts ∧
        0 < get_message_size t ∧ (buf.drop c).length < get_message_size t) ∧
    ((∃ e ∈ evs, e.isUnknown = true) →
      ∃ t ts, buf.drop c = t :: ts ∧ get_message_size t = 0 ∧
        evs.countP Event.isUnknown = 1 ∧
        evs.getLast? = some (Event.onUnknown t (buf.drop c).length)) := by
  obtain ⟨h1, h2, h3, h4⟩ := parseBufferGo_spec buf.length buf c evs le_rfl h
  refine ⟨h1, ?_, h2, h3, h4⟩
  simp only [List.length_drop]
  omega

/-- Demonstration stream for the witness of C2: one complete AddOrder
followed by an unknown tag z and further bytes. -/
def streamDemoBytes : List Nat := benchAddOrderBytes ++ 122 :: benchAddOrderBytes

/-- The events `parse_buffer` dispatches on `streamDemoBytes`. -/
def streamDemoEvents : List Event :=
  [Event.onAddOrder (decodeAddOrder benchAddOrderBytes), Event.onUnknown 122 37]

/-- Witness for C2 on the concrete demonstration stream. -/
theorem parse_buffer_stream_law_witness :
    36 ≤ streamDemoBytes.length ∧
    36 + (streamDemoBytes.drop 36).length = streamDemoBytes.length ∧
    streamDemoEvents.countP Event.isUnknown ≤ 1 ∧
    ((∀ e ∈ streamDemoEvents, e.isUnknown = false) →
      streamDemoBytes.drop 36 = [] ∨ ∃ t ts, streamDemoBytes.drop 36 = t :: ts ∧
        0 < get_message_size t ∧ (streamDemoBytes.drop 36).length < get_message_size t) ∧
    ((∃ e ∈ streamDemoEvents, e.isUnknown = true) →
      ∃ t ts, streamDemoBytes.drop 36 = t :: ts ∧ get_message_size t = 0 ∧
        streamDemoEvents.countP Event.isUnknown = 1 ∧
        streamDemoEvents.getLast? =
          some (Event.onUnknown t (streamDemoBytes.drop 36).length)) :=
  parse_buffer_stream_law streamDemoBytes 36 streamDemoEvents (by decide)

/-- Claim C8: `get_message_size` maps tag A (byte 65) to 36, tag E (69) to
31, tag S (83) to 12, and every other byte value to 0. -/
theorem get_message_size_table : ∀ t : Nat,
    get_message_size t =
      if t = 65 then 36 else if t = 69 then 31 else if t = 83 then 12 else 0 := by
  intro t
  simp [get_message_size, addOrderSize, orderExecutedSize, headerSize]

/-- Claim C10: for every buffer shorter than 12 bytes
(`sizeof(MessageHeader)`), `Parser::parse` returns `BufferTooSmall` and
invokes no visitor method at all, whatever the first byte is. -/
theorem parse_short_returns_buffer_too_small (buf : List Nat)
    (h : buf.length < 12) : parse buf = (ParseResult.BufferTooSmall, []) := by
  simp [parse, headerSize, h]

/-- Witness for C10 at a concrete 11-byte buffer with an unknown first byte. -/
theorem parse_short_returns_buffer_too_small_witness :
    parse [90, 1, 2, 3, 4, 5, 6, 7, 8, 9, 10] = (ParseResult.BufferTooSmall, []) :=
  parse_short_returns_buffer_too_small [90, 1, 2, 3, 4, 5, 6, 7, 8, 9, 10] (by decide)

/-- Counterexample to claim C1: the buffer `[90]` (one byte, tag z, a tag of
size 0) makes `Parser::parse` return `BufferTooSmall` with no `on_unknown`
call, while the claim demands `UnknownType` after an `on_unknown` call for
every buffer of length at least 1 whose tag has size 0. -/
theorem parse_unknown_short_counterexample :
    parse [90] = (ParseResult.BufferTooSmall, []) ∧
    (parse [90]).1 ≠ ParseResult.UnknownType ∧
    get_message_size 90 = 0 := by
  refine ⟨by decide, by decide, by decide⟩

/-- Claim C1 as amended: for a non-empty buffer `t :: rest`, if the buffer
has at least 12 bytes (`sizeof(MessageHeader)`) and `get_message_size t = 0`
then `Parser::parse` calls `on_unknown` with that tag and the buffer length
and returns `UnknownType`; and `BufferTooSmall` is returned exactly when the
buffer is shorter than 12 bytes, or `get_message_size t > 0` and the buffer
is shorter than that size. -/
theorem parse_unknown_dispatch (buf : List Nat) (t : Nat) (rest : List Nat)
    (hbuf : buf = t :: rest) :
    (12 ≤ buf.length → get_message_size t = 0 →
      parse buf = (ParseResult.UnknownType, [Event.onUnknown t buf.length])) ∧
    ((parse buf).1 = ParseResult.BufferTooSmall ↔
      buf.length < 12 ∨
        (0 < get_message_size t ∧ buf.length < get_message_size t)) := by
  subst hbuf
  simp only [parse, get_message_size, headerSize, addOrderSize, orderExecutedSize,
    List.getD_cons_zero]
  split_ifs with h1 h2 h3 h4 h5 h6 h7 <;> (simp_all; try omega)

/-- Witness for the amended C1 at a 12-byte buffer with unknown tag z. -/
theorem parse_unknown_dispatch_witness :
    parse [90, 1, 2, 3, 4, 5, 6, 7, 8, 9, 10, 11] =
      (ParseResult.UnknownType, [Event.onUnknown 90 12]) :=
  (parse_unknown_dispatch [90, 1, 2, 3, 4, 5, 6, 7, 8, 9, 10, 11] 90
    [1, 2, 3, 4, 5, 6, 7, 8, 9, 10, 11] rfl).1 (by decide) (by decide)

/-- Counterexample to claim C9: parsing the byte sequence exactly as listed
in scenario S1 of the spec yields an AddOrder whose decoded timestamp is
176815091456 — not the 45296789012345 the claim expects (the listing is 37
bytes long and its timestamp/order-ref bytes do not encode the stated
field values). -/
theorem addorder_scenario_counterexample :
    (parse specListedBytes).1 = ParseResult.Ok ∧
    parse specListedBytes =
      (ParseResult.Ok, [Event.onAddOrder (decodeAddOrder specListedBytes)]) ∧
    (decodeAddOrder specListedBytes).header.timestamp = 176815091456 ∧
    (decodeAddOrder specListedBytes).header.timestamp ≠ 45296789012345 ∧
    (decodeAddOrder specListedBytes).side ≠ 66 := by
  refine ⟨by decide, by decide, by decide, by decide, by decide⟩

/-- Claim C9 as amended: decoding the 36-byte AddOrder message that
`create_add_order_message` of `benchmarks/itch_bench.cpp` builds (the
correct encoding of scenario S1's field values) dispatches `on_add_order`
exactly once with stock_locate 1234, tracking_number 5678, timestamp
45296789012345, order_ref 0x123456789ABCDEF0, side B (a buy), shares 1000,
symbol AAPL space-padded, price 1502500, and returns `Ok` with 36 bytes
consumed. -/
theorem addorder_scenario_decode :
    parse benchAddOrderBytes =
      (ParseResult.Ok,
        [Event.onAddOrder
          { header :=
              { msg_type := 65, stock_locate := 1234, tracking_number := 5678,
                timestamp := 45296789012345 },
            order_ref := 0x123456789ABCDEF0, side := 66, shares := 1000,
            symbol := [65, 65, 80, 76, 32, 32, 32, 32], price := 1502500 }]) ∧
    side_is_buy (decodeAddOrder benchAddOrderBytes) = true ∧
    parse_buffer benchAddOrderBytes =
      (36, [Event.onAddOrder (decodeAddOrder benchAddOrderBytes)]) := by
  refine ⟨by decide, by decide, by decide⟩

/-- `is_valid_itch_type` of `src/src/replay_driver.cpp` (identical lambda in
`src/src/main.cpp`): the recognised ITCH tag alphabet
A F E C X D U, P Q B, S R H Y L, I N, V W K. -/
def is_valid_itch_type (c : Nat) : Bool :=
  c = 65 || c = 70 || c = 69 || c = 67 || c = 88 || c = 68 || c = 85 ||
  c = 80 || c = 81 || c = 66 ||
  c = 83 || c = 82 || c = 72 || c = 89 || c = 76 ||
  c = 73 || c = 78 ||
  c = 86 || c = 87 || c = 75

/-- The candidate offsets `OFFSETS` of `find_itch_offset`. -/
def fixedOffsets : List Nat := [42, 46, 62, 64, 66, 68]

/-- A fixed candidate offset is accepted iff it lies inside the datagram and
its byte is a recognised tag (in the source, the stock-locate test that
follows returns the offset in both of its branches, so acceptance at a
fixed offset is decided by the tag alone). -/
def tagValidAt (data : List Nat) (off : Nat) : Bool :=
  decide (off < data.length) && is_valid_itch_type (data.getD off 0)

/-- The big-endian stock-locate formed by the two bytes after `off`
(`static_cast<uint8_t>` modelled by the reduction mod 256). -/
def stockLocateAt (data : List Nat) (off : Nat) : Nat :=
  (data.getD (off + 1) 0 % 256) * 256 + data.getD (off + 2) 0 % 256

/-- The predicate of the fallback linear scan in `find_itch_offset`: a
recognised tag whose following two bytes are readable and form a
stock-locate strictly between 0 and 10000. -/
def scanPredicate (data : List Nat) (off : Nat) : Bool :=
  is_valid_itch_type (data.getD off 0) &&
  (decide (off + 3 ≤ data.length) &&
    (decide (0 < stockLocateAt data off) && decide (stockLocateAt data off < 10000)))

/-- The fixed-offset loop of `find_itch_offset`: the first candidate, in
table order, that is in bounds and holds a recognised tag. -/
def tryOffsets (data : List Nat) : List Nat → Option Nat
  | [] => none
  | o :: os => if tagValidAt data o then some o else tryOffsets data os

/-- The fallback scan loop of `find_itch_offset`: try `count` consecutive
offsets starting at `i`, returning the first satisfying `scanPredicate`. -/
def scanLoop (data : List Nat) : Nat → Nat → Option Nat
  | _, 0 => none
  | i, count + 1 =>
    if scanPredicate data i then some i else scanLoop data (i + 1) count

/-- `find_itch_offset` of `src/src/replay_driver.cpp` (and the identical
lambda in `src/src/main.cpp`): try the fixed offsets in order, then scan
the first 100 bytes, then fall back to 42. -/
def find_itch_offset (data : List Nat) : Nat :=
  match tryOffsets data fixedOffsets with
  | some o => o
  | none =>
    match scanLoop data 0 (if data.length < 100 then data.length else 100) with
    | some o => o
    | none => 42

/-- First-match characterisation of the fixed-offset loop over the
candidate table. -/
lemma tryOffsets_fixed_spec (data : List Nat) :
    (∃ o ∈ fixedOffsets, tagValidAt data o = true ∧
       tryOffsets data fixedOffsets = some o ∧
       ∀ o2 ∈ fixedOffsets, o2 < o → tagValidAt data o2 = false) ∨
    ((∀ o ∈ fixedOffsets, tagValidAt data o = false) ∧
       tryOffsets data fixedOffsets = none) := by
  by_cases h1 : tagValidAt data 42 = true
  · exact Or.inl ⟨42, by simp [fixedOffsets], h1,
      by simp [tryOffsets, fixedOffsets, h1],
      by intro o2 ho2 hlt; fin_cases ho2 <;> omega⟩
  all_goals simp only [Bool.not_eq_true] at h1
  by_cases h2 : tagValidAt data 46 = true
  · exact Or.inl ⟨46, by simp [fixedOffsets], h2,
      by simp [tryOffsets, fixedOffsets, h1, h2],
      by intro o2 ho2 hlt; fin_cases ho2 <;> first | omega | exact h1⟩
  all_goals simp only [Bool.not_eq_true] at h2
  by_cases h3 : tagValidAt data 62 = true
  · exact Or.inl ⟨62, by simp [fixedOffsets], h3,
      by simp [tryOffsets, fixedOffsets, h1, h2, h3],
      by intro o2 ho2 hlt; fin_cases ho2 <;> first | omega | exact h1 | exact h2⟩
  all_goals simp only [Bool.not_eq_true] at h3
  by_cases h4 : tagValidAt data 64 = true
  · exact Or.inl ⟨64, by simp [fixedOffsets], h4,
      by simp [tryOffsets, fixedOffsets, h1, h2, h3, h4],
      by intro o2 ho2 hlt; fin_cases ho2 <;>
        first | omega | exact h1 | exact h2 | exact h3⟩
  all_goals simp only [Bool.not_eq_true] at h4
  by_cases h5 : tagValidAt data 66 = true
  · exact Or.inl ⟨66, by simp [fixedOffsets], h5,
      by simp [tryOffsets, fixedOffsets, h1, h2, h3, h4, h5],
      by intro o2 ho2 hlt; fin_cases ho2 <;>
        first | omega | exact h1 | exact h2 | exact h3 | exact h4⟩
  all_goals simp only [Bool.not_eq_true] at h5
  by_cases h6 : tagValidAt data 68 = true
  · exact Or.inl ⟨68, by simp [fixedOffsets], h6,
      by simp [tryOffsets, fixedOffsets, h1, h2, h3, h4, h5, h6],
      by intro o2 ho2 hlt; fin_cases ho2 <;>
        first | omega | exact h1 | exact h2 | exact h3 | exact h4 | exact h5⟩
  all_goals simp only [Bool.not_eq_true] at h6
  refine Or.inr ⟨?_, by simp [tryOffsets, fixedOffsets, h1, h2, h3, h4, h5, h6]⟩
  intro o ho
  fin_cases ho <;> assumption

/-- First-match characterisation of the fallback scan loop. -/
lemma scanLoop_spec (data : List Nat) : ∀ (count i : Nat),
    (∃ k, k < count ∧ scanPredicate data (i + k) = true ∧
       scanLoop data i count = some (i + k) ∧
       ∀ j < k, scanPredicate data (i + j) = false) ∨
    ((∀ k < count, scanPredicate data (i + k) = false) ∧
       scanLoop data i count = none) := by
  intro count
  induction count with
  | zero => intro i; exact Or.inr ⟨by omega, rfl⟩
  | succ n ih =>
    intro i
    by_cases h : scanPredicate data i = true
    · refine Or.inl ⟨0, by omega, by simpa using h, ?_, by omega⟩
      simp [scanLoop, h]
    · have h' : scanPredicate data i = false := by
        simpa using h
      rcases ih (i + 1) with ⟨k, hk, hp, hres, hmin⟩ | ⟨hall, hres⟩
      · refine Or.inl ⟨k + 1, by omega, ?_, ?_, ?_⟩
        · rw [show i + (k + 1) = i + 1 + k by omega]
          exact hp
        · rw [show scanLoop data i (n + 1) = scanLoop data (i + 1) n by
            simp [scanLoop, h'], hres]
          congr 1
          omega
        · intro j hj
          cases j with
          | zero => simpa using h'
          | succ m =>
            have hm := hmin m (by omega)
            rw [show i + (m + 1) = i + 1 + m by omega]
            exact hm
      · refine Or.inr ⟨?_, by simp [scanLoop, h', hres]⟩
        intro k hk
        cases k with
        | zero => simpa using h'
        | succ m =>
          have hm := hall m (by omega)
          rw [show i + (m + 1) = i + 1 + m by omega]
          exact hm

/-- Claim C5: `find_itch_offset` returns the first fixed offset of
{42, 46, 62, 64, 66, 68} (in that order, considered only when inside the
datagram) whose byte is a recognised ITCH tag — regardless of the
stock-locate bytes after it; failing that, a linear scan over the first
100 bytes returns the first position whose tag is recognised and whose
stock-locate is readable and strictly between 0 and 10000; on total
failure it returns 42. -/
theorem find_itch_offset_spec (data : List Nat) :
    (∃ o ∈ fixedOffsets, tagValidAt data o = true ∧ find_itch_offset data = o ∧
       ∀ o2 ∈ fixedOffsets, o2 < o → tagValidAt data o2 = false) ∨
    ((∀ o ∈ fixedOffsets, tagValidAt data o = false) ∧
      ((∃ i, i < min data.length 100 ∧ scanPredicate data i = true ∧
          find_itch_offset data = i ∧ ∀ j < i, scanPredicate data j = false) ∨
       ((∀ i < min data.length 100, scanPredicate data i = false) ∧
          find_itch_offset data = 42))) := by
  have hmin : (if data.length < 100 then data.length else 100) = min data.length 100 := by
    split <;> omega
  rcases tryOffsets_fixed_spec data with ⟨o, ho, hv, hres, hfirst⟩ | ⟨hnone, hres⟩
  · exact Or.inl ⟨o, ho, hv, by simp [find_itch_offset, hres], hfirst⟩
  · refine Or.inr ⟨hnone, ?_⟩
    rcases scanLoop_spec data (if data.length < 100 then data.length else 100) 0 with
      ⟨k, hk, hp, hsres, hmin2⟩ | ⟨hall, hsres⟩
    · refine Or.inl ⟨k, by omega, by simpa using hp, ?_, ?_⟩
      · simp only [find_itch_offset, hres, hsres]
        omega
      · intro j hj
        simpa using hmin2 j hj
    · refine Or.inr ⟨?_, by simp [find_itch_offset, hres, hsres]⟩
      intro i hi
      simpa using hall i (by omega)

/-- Little-endian 32-bit load at offset `off` — how the x86 host reads a
`uint32_t` field out of the mapped file (each byte reduced mod 256). -/
def readU32LE (content : List Nat) (off : Nat) : Nat :=
  content.getD off 0 % 256 + (content.getD (off + 1) 0 % 256) * 256 +
  (content.getD (off + 2) 0 % 256) * 65536 + (content.getD (off + 3) 0 % 256) * 16777216

/-- `__builtin_bswap32`: reverse the four bytes of a 32-bit value. -/
def bswap32 (v : Nat) : Nat :=
  (v % 256) * 16777216 + (v / 256 % 256) * 65536 + (v / 65536 % 256) * 256 +
  v / 16777216 % 256

/-- `PcapReader` of `pcap_reader.hpp`, at the level of the mapped bytes:
`data = some content` models an established mapping of the whole file,
`none` a closed reader (descriptor and mapping released). -/
structure PcapReader where
  data : Option (List Nat)
  needs_swap : Bool
deriving DecidableEq, Repr

/-- `PcapReader::is_open`. -/
def PcapReader.isOpen (r : PcapReader) : Bool := r.data.isSome

/-- `PcapReader::open` of `pcap_reader.hpp`, taken at the point where the
file has been mapped (OS-level open/fstat/mmap failures are outside the
byte-level model; each of them likewise leaves the reader closed): check
the size against the 24-byte global header, then the magic, deriving the
swap flag; on failure `close()` runs and no mapping remains (the source's
`close()` does not touch `needs_swap_`, hence the carried-over flag). -/
def PcapReader.open (r : PcapReader) (content : List Nat) : Bool × PcapReader :=
  if content.length < 24 then (false, ⟨none, r.needs_swap⟩)
  else
    let magic := readU32LE content 0
    if magic = 0xa1b2c3d4 ∨ magic = 0xa1b23c4d then (true, ⟨some content, false⟩)
    else if magic = 0xd4c3b2a1 ∨ magic = 0x4d3cb2a1 then (true, ⟨some content, true⟩)
    else (false, ⟨none, r.needs_swap⟩)

/-- The swapped `incl_len` field of the packet header starting at `off`
(field offset 8 within the 16-byte header). -/
def inclLenAt (content : List Nat) (swap : Bool) (off : Nat) : Nat :=
  let v := readU32LE content (off + 8)
  if swap then bswap32 v else v

/-- The packet-walk loop of `PcapReader::for_each_packet`: starting at
`offset`, as long as a 16-byte packet header fits, read the (swapped)
`incl_len`, stop if the payload overruns the file, otherwise record the
callback invocation `(payload_offset, incl_len)` and advance.  `fuel` only
bounds the recursion (every iteration advances by at least 16 bytes, so
`content.length` fuel is always enough). -/
def walkPacketsGo (content : List Nat) (swap : Bool) : Nat → Nat → Nat × List (Nat × Nat)
  | 0, _ => (0, [])
  | fuel + 1, offset =>
    if offset + 16 ≤ content.length then
      let incl := inclLenAt content swap offset
      if content.length < offset + 16 + incl then (0, [])
      else
        let nxt := walkPacketsGo content swap fuel (offset + 16 + incl)
        (nxt.1 + 1, (offset + 16, incl) :: nxt.2)
    else (0, [])

/-- `PcapReader::for_each_packet`: returns the packet count and the list of
callback invocations `(payload_offset, incl_len)` in file order. -/
def PcapReader.for_each_packet (r : PcapReader) : Nat × List (Nat × Nat) :=
  match r.data with
  | none => (0, [])
  | some content => walkPacketsGo content r.needs_swap content.length 24

/-- Offset just after the last visited record (the walk's final cursor),
`offset` when nothing was visited. -/
def endFrom (offset : Nat) (ps : List (Nat × Nat)) : Nat :=
  match ps.getLast? with
  | some p => p.1 + p.2
  | none => offset

/-- Claim C7: the modelled `PcapReader::open` succeeds (and leaves the
reader open) exactly on a mapped file of at least 24 bytes whose magic is
one of the four supported values, the swap flag set exactly for the two
byte-swapped magics; on failure the mapping is released and the reader is
not open. -/
theorem pcap_open_spec (r : PcapReader) (content : List Nat) :
    ((PcapReader.open r content).1 = true ↔
      24 ≤ content.length ∧
        (readU32LE content 0 = 0xa1b2c3d4 ∨ readU32LE content 0 = 0xa1b23c4d ∨
         readU32LE content 0 = 0xd4c3b2a1 ∨ readU32LE content 0 = 0x4d3cb2a1)) ∧
    ((PcapReader.open r content).1 = true →
      ((PcapReader.open r content).2.isOpen = true ∧
        ((PcapReader.open r content).2.needs_swap = true ↔
          readU32LE content 0 = 0xd4c3b2a1 ∨ readU32LE content 0 = 0x4d3cb2a1))) ∧
    ((PcapReader.open r content).1 = false →
      (PcapReader.open r content).2.isOpen = false) := by
  by_cases h1 : content.length < 24
  · simp only [PcapReader.open, if_pos h1]
    simp [PcapReader.isOpen]
    all_goals omega
  · by_cases h2 : readU32LE content 0 = 0xa1b2c3d4 ∨ readU32LE content 0 = 0xa1b23c4d
    · simp only [PcapReader.open, if_neg h1]
      rw [if_pos h2]
      simp [PcapReader.isOpen]
      all_goals omega
    · by_cases h3 : readU32LE content 0 = 0xd4c3b2a1 ∨ readU32LE content 0 = 0x4d3cb2a1
      · simp only [PcapReader.open, if_neg h1]
        rw [if_neg h2, if_pos h3]
        simp [PcapReader.isOpen]
        all_goals omega
      · simp only [PcapReader.open, if_neg h1]
        rw [if_neg h2, if_neg h3]
        simp [PcapReader.isOpen]
        all_goals omega

/-- Invariant of the packet-walk loop, by induction on the fuel. -/
lemma walkPacketsGo_spec (content : List Nat) (swap : Bool) :
    ∀ (fuel offset : Nat) (n : Nat) (ps : List (Nat × Nat)),
    content.length ≤ 16 * fuel + offset →
    walkPacketsGo content swap fuel offset = (n, ps) →
    n = ps.length ∧
    (∀ p ∈ ps, 16 ≤ p.1 ∧ p.1 + p.2 ≤ content.length ∧
      p.2 = inclLenAt content swap (p.1 - 16)) ∧
    (∀ p0, ps.head? = some p0 → p0.1 = offset + 16) ∧
    List.Chain' (fun p q => q.1 = p.1 + p.2 + 16) ps ∧
    (content.length < endFrom offset ps + 16 ∨
      content.length < endFrom offset ps + 16 + inclLenAt content swap (endFrom offset ps)) := by
  intro fuel
  induction fuel with
  | zero =>
    intro offset n ps hfuel heq
    simp only [walkPacketsGo] at heq
    cases heq
    refine ⟨rfl, by simp, by simp, by simp, ?_⟩
    simp only [endFrom, List.getLast?_nil]
    omega
  | succ f ih =>
    intro offset n ps hfuel heq
    simp only [walkPacketsGo] at heq
    by_cases hfit : offset + 16 ≤ content.length
    · rw [if_pos hfit] at heq
      by_cases hover : content.length < offset + 16 + inclLenAt content swap offset
      · rw [if_pos hover] at heq
        cases heq
        refine ⟨rfl, by simp, by simp, by simp, ?_⟩
        simp only [endFrom, List.getLast?_nil]
        omega
      · rw [if_neg hover] at heq
        push_neg at hover
        obtain ⟨n', ps', hgo⟩ : ∃ n' ps',
            walkPacketsGo content swap f (offset + 16 + inclLenAt content swap offset) =
              (n', ps') := ⟨_, _, rfl⟩
        rw [hgo] at heq
        simp only [] at heq
        cases heq
        obtain ⟨ih1, ih2, ih3, ih4, ih5⟩ := ih _ _ _ (by omega) hgo
        refine ⟨by simp [ih1], ?_, ?_, ?_, ?_⟩
        · intro p hp
          rcases List.mem_cons.1 hp with h | h
          · subst h
            refine ⟨by omega, by simpa using hover, ?_⟩
            simp
          · exact ih2 p h
        · intro p0 hp0
          simp only [List.head?_cons, Option.some.injEq] at hp0
          rw [← hp0]
        · refine List.chain'_cons'.2 ⟨?_, ih4⟩
          intro q hq
          have hq1 := ih3 q hq
          show q.1 = offset + 16 + inclLenAt content swap offset + 16
          omega
        · have hend : endFrom offset ((offset + 16, inclLenAt content swap offset) :: ps') =
              endFrom (offset + 16 + inclLenAt content swap offset) ps' := by
            cases hps' : ps' with
            | nil => simp [endFrom]
            | cons a as =>
              simp only [endFrom, List.getLast?_cons_cons]
              rw [← hps']
              cases hlast : ps'.getLast? with
              | none =>
                rw [hps'] at hlast
                simp at hlast
              | some p => rfl
          rw [hend]
          exact ih5
    · rw [if_neg hfit] at heq
      cases heq
      refine ⟨rfl, by simp, by simp, by simp, ?_⟩
      simp only [endFrom, List.getLast?_nil]
      omega

/-- Claim C6: on an open reader, `for_each_packet` walks records from
offset 24, invokes the callback exactly once, in file order, for each
record whose 16-byte header and swapped `incl_len` payload lie within the
file, returns the number of such records, and stops exactly when the next
record's header or payload would extend past end of file (truncated final
record: no callback, no error). -/
theorem for_each_packet_spec (content : List Nat) (swap : Bool) (n : Nat)
    (ps : List (Nat × Nat))
    (h : PcapReader.for_each_packet ⟨some content, swap⟩ = (n, ps)) :
    n = ps.length ∧
    (∀ p ∈ ps, 16 ≤ p.1 ∧ p.1 + p.2 ≤ content.length ∧
      p.2 = inclLenAt content swap (p.1 - 16)) ∧
    (∀ p0, ps.head? = some p0 → p0.1 = 24 + 16) ∧
    List.Chain' (fun p q => q.1 = p.1 + p.2 + 16) ps ∧
    (content.length < endFrom 24 ps + 16 ∨
      content.length < endFrom 24 ps + 16 + inclLenAt content swap (endFrom 24 ps)) := by
  have h' : walkPacketsGo content swap content.length 24 = (n, ps) := h
  exact walkPacketsGo_spec content swap content.length 24 n ps (by omega) h'

/-- A 52-byte capture for the C6 witness: 24-byte global header, one
complete 2-byte-payload record, then 10 trailing bytes (a truncated
record). -/
def pcapDemoContent : List Nat :=
  [212, 195, 178, 161, 2, 0, 4, 0, 0, 0, 0, 0, 0, 0, 0, 0, 255, 255, 0, 0, 1, 0, 0, 0,
   1, 0, 0, 0, 2, 0, 0, 0, 2, 0, 0, 0, 60, 0, 0, 0,
   9, 9,
   1, 2, 3, 4, 5, 6, 7, 8]

/-- Witness for C6: the demonstration capture yields exactly one packet,
`(40, 2)`, and the truncated 10-byte tail ends the walk cleanly. -/
theorem for_each_packet_spec_witness :
    1 = [((40 : Nat), (2 : Nat))].length ∧
    (∀ p ∈ [((40 : Nat), (2 : Nat))], 16 ≤ p.1 ∧ p.1 + p.2 ≤ pcapDemoContent.length ∧
      p.2 = inclLenAt pcapDemoContent false (p.1 - 16)) ∧
    (∀ p0, [((40 : Nat), (2 : Nat))].head? = some p0 → p0.1 = 24 + 16) ∧
    List.Chain' (fun p q => q.1 = p.1 + p.2 + 16) [((40 : Nat), (2 : Nat))] ∧
    (pcapDemoContent.length < endFrom 24 [((40 : Nat), (2 : Nat))] + 16 ∨
      pcapDemoContent.length <
        endFrom 24 [((40 : Nat), (2 : Nat))] + 16 +
          inclLenAt pcapDemoContent false (endFrom 24 [((40 : Nat), (2 : Nat))])) :=
  for_each_packet_spec pcapDemoContent false 1 [(40, 2)] (by decide)

end Itch

namespace Engine

/-- Modelled from the spec: `Side` of the matching engine
(`order_book.hpp` is absent from the snapshot). -/
inductive Side where
  | Buy
  | Sell
deriving DecidableEq, Repr

/-- Modelled from the spec: a resting order — id and remaining quantity
(its price is the price of the level holding it). -/
structure Order where
  id : Nat
  qty : Nat
deriving DecidableEq, Repr

/-- Modelled from the spec: a price level — an insertion-ordered (FIFO)
list of resting orders at one price. -/
structure Level where
  price : Nat
  orders : List Order
deriving DecidableEq, Repr

/-- Modelled from the spec: the book — a fixed pool capacity, the bid
ladder (kept sorted by descending price) and the ask ladder (ascending). -/
structure Book where
  capacity : Nat
  bids : List Level
  asks : List Level
deriving DecidableEq, Repr

/-- An empty book over a pool of the given capacity. -/
def Book.empty (cap : Nat) : Book := ⟨cap, [], []⟩

/-- Total number of orders resting in a ladder. -/
def ladderSize (ls : List Level) : Nat := (ls.map fun l => l.orders.length).sum

/-- `order_count`: live orders in the book (equals allocated pool slots). -/
def Book.orderCount (b : Book) : Nat := ladderSize b.bids + ladderSize b.asks

/-- The ids resting in a ladder. -/
def idsOfLadder (ls : List Level) : List Nat :=
  (ls.map fun l => l.orders.map fun o => o.id).flatten

/-- The index lookup: is an order id present in the book? -/
def Book.containsId (b : Book) (id : Nat) : Bool :=
  (idsOfLadder b.bids).contains id || (idsOfLadder b.asks).contains id

/-- The price list of a ladder. -/
def prices (ls : List Level) : List Nat := ls.map fun l => l.price

/-- Modelled from the spec: insert a residual order at its price into a
ladder ordered by `before` (strict priority of the first price over the
second): find or create the price's level, appending to the level's tail. -/
def insertLevel (before : Nat → Nat → Bool) (price : Nat) (o : Order) :
    List Level → List Level
  | [] => [⟨price, [o]⟩]
  | l :: ls =>
    if before price l.price then ⟨price, [o]⟩ :: l :: ls
    else if price = l.price then ⟨l.price, l.orders ++ [o]⟩ :: ls
    else l :: insertLevel before price o ls

/-- Modelled from the spec: the price-time-priority matching loop — while
the incoming quantity is positive and the opposite ladder's best level is
aggressed, fill against the head (oldest) order of that level:
`fill = min(qty, o.qty)`, removing the order (and an emptied level) on a
full fill.  Returns the residual quantity and the remaining ladder.
`fuel` only bounds the recursion (each step removes one resting order, so
`ladderSize + 1` fuel is always enough). -/
def consumeGo (aggr : Nat → Nat → Bool) (price : Nat) :
    Nat → Nat → List Level → Nat × List Level
  | _, qty, [] => (qty, [])
  | 0, qty, l :: ls => (qty, l :: ls)
  | fuel + 1, qty, l :: ls =>
    if qty = 0 then (qty, l :: ls)
    else if aggr price l.price then
      match l.orders with
      | [] => (qty, l :: ls)
      | o :: os =>
        if o.qty ≤ qty then
          consumeGo aggr price fuel (qty - o.qty)
            (if os.isEmpty then ls else ⟨l.price, os⟩ :: ls)
        else (0, ⟨l.price, ⟨o.id, o.qty - qty⟩ :: os⟩ :: ls)
    else (qty, l :: ls)

/-- The matching loop at its always-sufficient fuel. -/
def consume (aggr : Nat → Nat → Bool) (price qty : Nat) (ladder : List Level) :
    Nat × List Level :=
  consumeGo aggr price (ladderSize ladder + 1) qty ladder

/-- Priority order of the bid ladder: higher price first. -/
def bidBefore : Nat → Nat → Bool := fun a c => decide (c < a)

/-- Priority order of the ask ladder: lower price first. -/
def askBefore : Nat → Nat → Bool := fun a c => decide (a < c)

/-- A buy at `price` aggresses an ask level priced at most `price`. -/
def aggrBuy : Nat → Nat → Bool := fun p lp => decide (lp ≤ p)

/-- A sell at `price` aggresses a bid level priced at least `price`. -/
def aggrSell : Nat → Nat → Bool := fun p lp => decide (p ≤ lp)

/-- Modelled from the spec: `add_order(id, price, qty, side)` — reject a
duplicate id, a zero quantity, or an exhausted pool, all without mutation;
otherwise match against the opposite ladder and rest any residual at
`(price, side)`, returning `true`. -/
def Book.add_order (b : Book) (id price qty : Nat) (side : Side) : Bool × Book :=
  if b.containsId id then (false, b)
  else if qty = 0 then (false, b)
  else if b.capacity ≤ b.orderCount then (false, b)
  else
    match side with
    | .Buy =>
      let r := consume aggrBuy price qty b.asks
      let bids2 := if r.1 = 0 then b.bids
        else insertLevel bidBefore price ⟨id, r.1⟩ b.bids
      (true, ⟨b.capacity, bids2, r.2⟩)
    | .Sell =>
      let r := consume aggrSell price qty b.bids
      let asks2 := if r.1 = 0 then b.asks
        else insertLevel askBefore price ⟨id, r.1⟩ b.asks
      (true, ⟨b.capacity, r.2, asks2⟩)

/-- Remove the order with the given id from a ladder, dropping its level
if that leaves the level empty. -/
def removeId (id : Nat) (ls : List Level) : List Level :=
  ls.filterMap fun l =>
    let os := l.orders.filter fun o => o.id != id
    if os.isEmpty then none else some ⟨l.price, os⟩

/-- Modelled from the spec: `cancel_order(id)` — `true` iff the id was
resting, removing its remaining quantity; a missing id returns `false`
without mutation. -/
def Book.cancel_order (b : Book) (id : Nat) : Bool × Book :=
  if b.containsId id then
    (true, ⟨b.capacity, removeId id b.bids, removeId id b.asks⟩)
  else (false, b)

/-- `best_bid()`: price of the first bid level. -/
def Book.best_bid (b : Book) : Option Nat := b.bids.head?.map fun l => l.price

/-- `best_ask()`: price of the first ask level. -/
def Book.best_ask (b : Book) : Option Nat := b.asks.head?.map fun l => l.price

/-- The book is not crossed: `best_bid < best_ask` whenever both exist. -/
def Book.notCrossed (b : Book) : Bool :=
  match b.bids.head?, b.asks.head? with
  | some lb, some la => decide (lb.price < la.price)
  | _, _ => true

/-- One matching-engine operation. -/
inductive Op where
  | add (id price qty : Nat) (side : Side)
  | cancel (id : Nat)
deriving DecidableEq, Repr

/-- Apply one operation to the book (keeping the post state). -/
def Book.applyOp (b : Book) : Op → Book
  | .add id price qty side => (b.add_order id price qty side).2
  | .cancel id => (b.cancel_order id).2

/-- Apply a sequence of operations in order. -/
def Book.applyOps (b : Book) (ops : List Op) : Book := ops.foldl Book.applyOp b

/-- Well-formedness of one ladder: prices strictly ordered by `before`,
every level non-empty. -/
def LadderWF (before : Nat → Nat → Bool) (ls : List Level) : Prop :=
  List.Pairwise (fun a c => before a c = true) (prices ls) ∧
  ∀ l ∈ ls, l.orders ≠ []

/-- Well-formedness of the book: bid ladder strictly descending, ask
ladder strictly ascending, and every bid price below every ask price. -/
def BookWF (b : Book) : Prop :=
  LadderWF bidBefore b.bids ∧ LadderWF askBefore b.asks ∧
  ∀ pb ∈ prices b.bids, ∀ pa ∈ prices b.asks, pb < pa

/-- Price list of a cons ladder (definitional unfolding). -/
lemma prices_cons (l : Level) (ls : List Level) :
    prices (l :: ls) = l.price :: prices ls := rfl

/-- Price list of the empty ladder. -/
lemma prices_nil : prices [] = [] := rfl

/-- Every price in an insertion result is the inserted price or an old one. -/
lemma insertLevel_prices_subset (before : Nat → Nat → Bool) (price : Nat) (o : Order) :
    ∀ ls, ∀ q ∈ prices (insertLevel before price o ls), q = price ∨ q ∈ prices ls := by
  intro ls
  induction ls with
  | nil =>
    intro q hq
    simp [insertLevel, prices] at hq
    exact Or.inl hq
  | cons l ls ih =>
    intro q hq
    simp only [insertLevel] at hq
    split_ifs at hq with h1 h2
    · rw [prices_cons, prices_cons] at hq
      rcases List.mem_cons.1 hq with h | h
      · exact Or.inl h
      · exact Or.inr (by rw [prices_cons]; exact h)
    · rw [prices_cons] at hq
      rcases List.mem_cons.1 hq with h | h
      · refine Or.inr ?_
        rw [prices_cons]
        exact List.mem_cons.2 (Or.inl h)
      · exact Or.inr (by rw [prices_cons]; exact List.mem_cons_of_mem _ h)
    · rw [prices_cons] at hq
      rcases List.mem_cons.1 hq with h | h
      · exact Or.inr (by rw [prices_cons]; exact h ▸ List.mem_cons_self _ _)
      · rcases ih q h with h' | h'
        · exact Or.inl h'
        · exact Or.inr (by rw [prices_cons]; exact List.mem_cons_of_mem _ h')

/-- Insertion keeps the ladder's strict price order. -/
lemma insertLevel_sorted (before : Nat → Nat → Bool)
    (htrans : ∀ a b c, before a b = true → before b c = true → before a c = true)
    (htri : ∀ a b, before a b = false → a ≠ b → before b a = true)
    (price : Nat) (o : Order) :
    ∀ ls, List.Pairwise (fun a c => before a c = true) (prices ls) →
      List.Pairwise (fun a c => before a c = true) (prices (insertLevel before price o ls)) := by
  intro ls
  induction ls with
  | nil =>
    intro _
    simp [insertLevel, prices]
  | cons l ls ih =>
    intro hpw
    rw [prices_cons, List.pairwise_cons] at hpw
    obtain ⟨hhead, htail⟩ := hpw
    simp only [insertLevel]
    split_ifs with h1 h2
    · rw [prices_cons, List.pairwise_cons]
      refine ⟨?_, ?_⟩
      · intro x hx
        rw [prices_cons] at hx
        rcases List.mem_cons.1 hx with h | h
        · subst h; exact h1
        · exact htrans price l.price x h1 (hhead x h)
      · rw [prices_cons, List.pairwise_cons]
        exact ⟨hhead, htail⟩
    · rw [prices_cons, List.pairwise_cons]
      exact ⟨hhead, htail⟩
    · rw [prices_cons, List.pairwise_cons]
      refine ⟨?_, ih htail⟩
      intro x hx
      rcases insertLevel_prices_subset before price o ls x hx with h | h
      · subst h
        exact htri _ _ (by simpa using h1) h2
      · exact hhead x h

/-- Insertion keeps every level non-empty. -/
lemma insertLevel_nonempty (before : Nat → Nat → Bool) (price : Nat) (o : Order) :
    ∀ ls, (∀ l ∈ ls, l.orders ≠ []) →
      ∀ l ∈ insertLevel before price o ls, l.orders ≠ [] := by
  intro ls
  induction ls with
  | nil =>
    intro _ l hl
    simp [insertLevel] at hl
    subst hl
    simp
  | cons l0 ls ih =>
    intro hne l hl
    simp only [insertLevel] at hl
    split_ifs at hl with h1 h2
    · rcases List.mem_cons.1 hl with h | h
      · subst h; simp
      · exact hne l h
    · rcases List.mem_cons.1 hl with h | h
      · subst h
        simp only [ne_eq, List.append_eq_nil]
        intro hcontra
        exact absurd hcontra.2 (by simp)
      · exact hne l (List.mem_cons_of_mem _ h)
    · rcases List.mem_cons.1 hl with h | h
      · subst h
        exact hne l (List.mem_cons_self _ _)
      · exact ih (fun l' hl' => hne l' (List.mem_cons_of_mem _ hl')) l h

/-- The prices of a ladder after an id removal form a sublist of the old
prices. -/
lemma removeId_prices_sublist (id : Nat) :
    ∀ ls, List.Sublist (prices (removeId id ls)) (prices ls) := by
  intro ls
  induction ls with
  | nil => simp [removeId, prices]
  | cons l ls ih =>
    simp only [removeId, List.filterMap_cons]
    by_cases hemp : (List.filter (fun o => o.id != id) l.orders).isEmpty = true
    · rw [if_pos hemp]
      rw [prices_cons]
      exact List.Sublist.trans (by simpa [removeId] using ih)
        (List.sublist_cons_self _ _)
    · rw [if_neg hemp]
      rw [prices_cons, prices_cons]
      exact List.Sublist.cons₂ _ (by simpa [removeId] using ih)

/-- Removal keeps every remaining level non-empty. -/
lemma removeId_nonempty (id : Nat) :
    ∀ ls, ∀ l ∈ removeId id ls, l.orders ≠ [] := by
  intro ls
  induction ls with
  | nil => simp [removeId]
  | cons l0 ls ih =>
    intro l hl
    simp only [removeId, List.filterMap_cons] at hl
    by_cases hemp : (List.filter (fun o => o.id != id) l0.orders).isEmpty = true
    · rw [if_pos hemp] at hl
      exact ih l (by simpa [removeId] using hl)
    · rw [if_neg hemp] at hl
      rcases List.mem_cons.1 hl with h | h
      · subst h
        intro hcontra
        apply hemp
        rw [show List.filter (fun o => o.id != id) l0.orders = [] from hcontra]
        rfl
      · exact ih l (by simpa [removeId] using h)

/-- Size of a cons ladder. -/
lemma ladderSize_cons (l : Level) (ls : List Level) :
    ladderSize (l :: ls) = l.orders.length + ladderSize ls := by
  simp [ladderSize]

/-- Invariant of the matching loop: the surviving ladder's prices are a
suffix of the original prices (levels are consumed from the front only),
levels stay non-empty, and a positive residual means the ladder is
exhausted or its new best is no longer aggressed. -/
lemma consumeGo_spec (aggr : Nat → Nat → Bool) (price : Nat) :
    ∀ (fuel qty : Nat) (ladder : List Level) (rem : Nat) (lad2 : List Level),
    ladderSize ladder < fuel →
    (∀ l ∈ ladder, l.orders ≠ []) →
    consumeGo aggr price fuel qty ladder = (rem, lad2) →
    List.IsSuffix (prices lad2) (prices ladder) ∧
    (∀ l ∈ lad2, l.orders ≠ []) ∧
    (rem ≠ 0 → lad2 = [] ∨ ∀ l0 ∈ lad2.head?, aggr price l0.price = false) := by
  intro fuel
  induction fuel with
  | zero =>
    intro qty ladder rem lad2 hfuel hne heq
    exact absurd hfuel (by omega)
  | succ f ih =>
    intro qty ladder rem lad2 hfuel hne heq
    cases ladder with
    | nil =>
      simp only [consumeGo] at heq
      cases heq
      exact ⟨List.suffix_refl _, by simp, fun _ => Or.inl rfl⟩
    | cons l ls =>
      simp only [consumeGo] at heq
      by_cases hq : qty = 0
      · rw [if_pos hq] at heq
        cases heq
        exact ⟨List.suffix_refl _, hne, fun hrem => absurd hq hrem⟩
      · rw [if_neg hq] at heq
        by_cases ha : aggr price l.price = true
        · rw [if_pos ha] at heq
          cases hlo : l.orders with
          | nil => exact absurd hlo (hne l (List.mem_cons_self _ _))
          | cons o os =>
            rw [hlo] at heq
            simp only [] at heq
            by_cases hof : o.qty ≤ qty
            · rw [if_pos hof] at heq
              by_cases hos : os.isEmpty = true
              · rw [if_pos hos] at heq
                have hos' : os = [] := List.isEmpty_iff.1 hos
                obtain ⟨ihsuf, ihne, ihstop⟩ := ih (qty - o.qty) ls rem lad2
                  (by
                    rw [ladderSize_cons, hlo] at hfuel
                    simp only [List.length_cons] at hfuel
                    omega)
                  (fun l' hl' => hne l' (List.mem_cons_of_mem _ hl'))
                  heq
                refine ⟨?_, ihne, ihstop⟩
                exact ihsuf.trans (by rw [prices_cons]; exact List.suffix_cons _ _)
              · rw [if_neg hos] at heq
                have hos' : os ≠ [] := by
                  intro hcontra
                  rw [hcontra] at hos
                  exact hos rfl
                obtain ⟨ihsuf, ihne, ihstop⟩ := ih (qty - o.qty) (⟨l.price, os⟩ :: ls) rem lad2
                  (by
                    rw [ladderSize_cons, hlo] at hfuel
                    rw [ladderSize_cons]
                    simp only [List.length_cons] at hfuel ⊢
                    omega)
                  (by
                    intro l' hl'
                    rcases List.mem_cons.1 hl' with h | h
                    · subst h; exact hos'
                    · exact hne l' (List.mem_cons_of_mem _ h))
                  heq
                refine ⟨?_, ihne, ihstop⟩
                exact ihsuf.trans (by rw [prices_cons, prices_cons])
            · rw [if_neg hof] at heq
              cases heq
              refine ⟨?_, ?_, fun hrem => absurd rfl hrem⟩
              · rw [prices_cons, prices_cons]
              · intro l' hl'
                rcases List.mem_cons.1 hl' with h | h
                · subst h; simp
                · exact hne l' (List.mem_cons_of_mem _ h)
        · rw [if_neg ha] at heq
          cases heq
          refine ⟨List.suffix_refl _, hne, fun _ => Or.inr ?_⟩
          intro l0 hl0
          have hl0' : l = l0 := by simpa using hl0
          subst hl0'
          simpa using ha

/-- The matching loop at its canonical fuel. -/
lemma consume_spec (aggr : Nat → Nat → Bool) (price qty : Nat) (ladder : List Level)
    (rem : Nat) (lad2 : List Level)
    (hne : ∀ l ∈ ladder, l.orders ≠ [])
    (heq : consume aggr price qty ladder = (rem, lad2)) :
    List.IsSuffix (prices lad2) (prices ladder) ∧
    (∀ l ∈ lad2, l.orders ≠ []) ∧
    (rem ≠ 0 → lad2 = [] ∨ ∀ l0 ∈ lad2.head?, aggr price l0.price = false) :=
  consumeGo_spec aggr price (ladderSize ladder + 1) qty ladder rem lad2
    (by omega) hne heq

/-- The empty book is well formed. -/
lemma bookWF_empty (cap : Nat) : BookWF (Book.empty cap) := by
  refine ⟨⟨?_, ?_⟩, ⟨?_, ?_⟩, ?_⟩ <;> simp [Book.empty, prices]

/-- A buy insert after matching preserves book well-formedness. -/
lemma addBuy_WF (b : Book) (id price qty rem : Nat) (asks2 : List Level)
    (h : BookWF b) (hr : consume aggrBuy price qty b.asks = (rem, asks2)) :
    BookWF ⟨b.capacity,
      (if rem = 0 then b.bids else insertLevel bidBefore price ⟨id, rem⟩ b.bids),
      asks2⟩ := by
  obtain ⟨⟨hbpw, hbne⟩, ⟨hapw, hane⟩, hcross⟩ := h
  obtain ⟨hsuf, hne2, hstop⟩ := consume_spec aggrBuy price qty b.asks rem asks2 hane hr
  have hsub : ∀ pa ∈ prices asks2, pa ∈ prices b.asks :=
    fun pa hpa => hsuf.sublist.subset hpa
  have hapw2 : List.Pairwise (fun a c => askBefore a c = true) (prices asks2) :=
    List.Pairwise.sublist hsuf.sublist hapw
  by_cases hrem : rem = 0
  · rw [if_pos hrem]
    exact ⟨⟨hbpw, hbne⟩, ⟨hapw2, hne2⟩,
      fun pb hpb pa hpa => hcross pb hpb pa (hsub pa hpa)⟩
  · rw [if_neg hrem]
    refine ⟨⟨?_, ?_⟩, ⟨hapw2, hne2⟩, ?_⟩
    · exact insertLevel_sorted bidBefore
        (by intro a c d hac hcd; simp only [bidBefore, decide_eq_true_eq] at *; omega)
        (by intro a c hac hne; simp only [bidBefore, decide_eq_true_eq,
              decide_eq_false_iff_not] at *; omega)
        price ⟨id, rem⟩ b.bids hbpw
    · exact insertLevel_nonempty bidBefore price ⟨id, rem⟩ b.bids hbne
    · intro pb hpb pa hpa
      rcases insertLevel_prices_subset bidBefore price ⟨id, rem⟩ b.bids pb hpb with h' | h'
      · subst h'
        rcases hstop hrem with hnil | hhead
        · rw [hnil] at hpa
          simp [prices] at hpa
        · cases asks2 with
          | nil => simp [prices] at hpa
          | cons l0 tl =>
            have hstop0 : aggrBuy pb l0.price = false := hhead l0 (by simp)
            have hlt : pb < l0.price := by
              simpa [aggrBuy] using hstop0
            rw [prices_cons] at hpa
            rcases List.mem_cons.1 hpa with h'' | h''
            · omega
            · rw [prices_cons, List.pairwise_cons] at hapw2
              have hord := hapw2.1 pa h''
              simp only [askBefore, decide_eq_true_eq] at hord
              omega
      · exact hcross pb h' pa (hsub pa hpa)

/-- A sell insert after matching preserves book well-formedness. -/
lemma addSell_WF (b : Book) (id price qty rem : Nat) (bids2 : List Level)
    (h : BookWF b) (hr : consume aggrSell price qty b.bids = (rem, bids2)) :
    BookWF ⟨b.capacity, bids2,
      (if rem = 0 then b.asks else insertLevel askBefore price ⟨id, rem⟩ b.asks)⟩ := by
  obtain ⟨⟨hbpw, hbne⟩, ⟨hapw, hane⟩, hcross⟩ := h
  obtain ⟨hsuf, hne2, hstop⟩ := consume_spec aggrSell price qty b.bids rem bids2 hbne hr
  have hsub : ∀ pb ∈ prices bids2, pb ∈ prices b.bids :=
    fun pb hpb => hsuf.sublist.subset hpb
  have hbpw2 : List.Pairwise (fun a c => bidBefore a c = true) (prices bids2) :=
    List.Pairwise.sublist hsuf.sublist hbpw
  by_cases hrem : rem = 0
  · rw [if_pos hrem]
    exact ⟨⟨hbpw2, hne2⟩, ⟨hapw, hane⟩,
      fun pb hpb pa hpa => hcross pb (hsub pb hpb) pa hpa⟩
  · rw [if_neg hrem]
    refine ⟨⟨hbpw2, hne2⟩, ⟨?_, ?_⟩, ?_⟩
    · exact insertLevel_sorted askBefore
        (by intro a c d hac hcd; simp only [askBefore, decide_eq_true_eq] at *; omega)
        (by intro a c hac hne; simp only [askBefore, decide_eq_true_eq,
              decide_eq_false_iff_not] at *; omega)
        price ⟨id, rem⟩ b.asks hapw
    · exact insertLevel_nonempty askBefore price ⟨id, rem⟩ b.asks hane
    · intro pb hpb pa hpa
      rcases insertLevel_prices_subset askBefore price ⟨id, rem⟩ b.asks pa hpa with h' | h'
      · subst h'
        rcases hstop hrem with hnil | hhead
        · rw [hnil] at hpb
          simp [prices] at hpb
        · cases bids2 with
          | nil => simp [prices] at hpb
          | cons l0 tl =>
            have hstop0 : aggrSell pa l0.price = false := hhead l0 (by simp)
            have hlt : l0.price < pa := by
              simpa [aggrSell] using hstop0
            rw [prices_cons] at hpb
            rcases List.mem_cons.1 hpb with h'' | h''
            · omega
            · rw [prices_cons, List.pairwise_cons] at hbpw2
              have hord := hbpw2.1 pb h''
              simp only [bidBefore, decide_eq_true_eq] at hord
              omega
      · exact hcross pb (hsub pb hpb) pa h'

/-- `add_order` preserves book well-formedness. -/
lemma addOrder_WF (b : Book) (id price qty : Nat) (side : Side) (h : BookWF b) :
    BookWF (b.add_order id price qty side).2 := by
  unfold Book.add_order
  split_ifs with h1 h2 h3
  · exact h
  · exact h
  · exact h
  · cases side with
    | Buy => exact addBuy_WF b id price qty _ _ h rfl
    | Sell => exact addSell_WF b id price qty _ _ h rfl

/-- `cancel_order` preserves book well-formedness. -/
lemma cancelOrder_WF (b : Book) (id : Nat) (h : BookWF b) :
    BookWF (b.cancel_order id).2 := by
  obtain ⟨⟨hbpw, hbne⟩, ⟨hapw, hane⟩, hcross⟩ := h
  unfold Book.cancel_order
  split_ifs with h1
  · refine ⟨⟨?_, removeId_nonempty id b.bids⟩, ⟨?_, removeId_nonempty id b.asks⟩, ?_⟩
    · exact List.Pairwise.sublist (removeId_prices_sublist id b.bids) hbpw
    · exact List.Pairwise.sublist (removeId_prices_sublist id b.asks) hapw
    · intro pb hpb pa hpa
      exact hcross pb ((removeId_prices_sublist id b.bids).subset hpb)
        pa ((removeId_prices_sublist id b.asks).subset hpa)
  · exact ⟨⟨hbpw, hbne⟩, ⟨hapw, hane⟩, hcross⟩

/-- Every operation preserves book well-formedness. -/
lemma applyOp_WF (b : Book) (op : Op) (h : BookWF b) : BookWF (b.applyOp op) := by
  cases op with
  | add id price qty side => exact addOrder_WF b id price qty side h
  | cancel id => exact cancelOrder_WF b id h

/-- Every operation sequence preserves book well-formedness. -/
lemma applyOps_WF (ops : List Op) : ∀ (b : Book), BookWF b → BookWF (b.applyOps ops) := by
  induction ops with
  | nil => intro b h; exact h
  | cons op ops ih =>
    intro b h
    exact ih (b.applyOp op) (applyOp_WF b op h)

/-- Claim C3: after every sequence of `add_order`/`cancel_order` operations
from the empty book, the bid ladder's prices are strictly descending, the
ask ladder's prices strictly ascending, and `best_bid < best_ask` whenever
both sides are non-empty — the book is never crossed. -/
theorem book_ladders_sorted_never_crossed (cap : Nat) (ops : List Op) :
    List.Pairwise (fun a c => a > c) (prices ((Book.empty cap).applyOps ops).bids) ∧
    List.Pairwise (fun a c => a < c) (prices ((Book.empty cap).applyOps ops).asks) ∧
    ((Book.empty cap).applyOps ops).notCrossed = true := by
  obtain ⟨⟨hbpw, hbne⟩, ⟨hapw, hane⟩, hcross⟩ :=
    applyOps_WF ops (Book.empty cap) (bookWF_empty cap)
  refine ⟨?_, ?_, ?_⟩
  · exact hbpw.imp fun h => by simpa [bidBefore] using h
  · exact hapw.imp fun h => by simpa [askBefore] using h
  · unfold Book.notCrossed
    set bk := (Book.empty cap).applyOps ops
    cases hbh : bk.bids with
    | nil => simp
    | cons lb tb =>
      cases hah : bk.asks with
      | nil => simp
      | cons la ta =>
        simp only [List.head?_cons]
        have hmb : lb.price ∈ prices bk.bids := by rw [hbh, prices_cons]; simp
        have hma : la.price ∈ prices bk.asks := by rw [hah, prices_cons]; simp
        simpa using hcross lb.price hmb la.price hma

/-- Claim C4: every matching-engine error path — duplicate id, zero
quantity, exhausted pool on `add_order`, missing id on `cancel_order` —
returns `false` and leaves the whole book unchanged. -/
theorem book_error_paths_no_mutation :
    (∀ (b : Book) (id price qty : Nat) (side : Side),
      b.containsId id = true → b.add_order id price qty side = (false, b)) ∧
    (∀ (b : Book) (id price : Nat) (side : Side),
      b.add_order id price 0 side = (false, b)) ∧
    (∀ (b : Book) (id price qty : Nat) (side : Side),
      b.capacity ≤ b.orderCount → b.add_order id price qty side = (false, b)) ∧
    (∀ (b : Book) (id : Nat),
      b.containsId id = false → b.cancel_order id = (false, b)) := by
  refine ⟨?_, ?_, ?_, ?_⟩
  · intro b id price qty side h
    simp [Book.add_order, h]
  · intro b id price side
    by_cases h : b.containsId id = true <;> simp [Book.add_order, h]
  · intro b id price qty side h
    by_cases h1 : b.containsId id = true
    · simp [Book.add_order, h1]
    · by_cases h2 : qty = 0 <;> simp [Book.add_order, h1, h2, h]
  · intro b id h
    simp [Book.cancel_order, h]

end Engine
